import Mathlib

/-! Verification of the histo-graph core: a shallow embedding of the directed
multigraph (src/core/src/graph/directed_graph.rs, util/b_tree_bag.rs,
graph/command.rs, historized_graph.rs) and of the history engine
(src/src/core/history/hashlist.rs, history.rs), together with proofs about
the behaviour of its operations. -/

namespace HistoGraph

/-! Basic graph building blocks (graph/graph.rs). VertexId is an unsigned
64-bit integer used only through equality and ordering, embedded as Nat. -/

abbrev VertexId := Nat

structure Edge where
  v1 : Nat
  v2 : Nat
deriving DecidableEq, Repr

def Edge.reverse (e : Edge) : Edge := ⟨e.v2, e.v1⟩

/-- Lexicographic order on edges, from derive(PartialOrd, Ord) on Edge. -/
def Edge.le (a b : Edge) : Bool :=
  Nat.blt a.v1 b.v1 || (a.v1 == b.v1 && Nat.ble a.v2 b.v2)

/-! BTreeBag (util/b_tree_bag.rs): a multiset backed by a BTreeMap from
element to occurrence count, iterated in sorted order with each element
repeated by its count. Embedded as the iteration sequence itself: a list
into which insert places a new occurrence at its sorted position and from
which remove erases one occurrence. -/

def bagInsert (t : Edge) : List Edge → List Edge
  | [] => [t]
  | x :: xs => if Edge.le t x then t :: x :: xs else x :: bagInsert t xs

def bagRemove (t : Edge) (xs : List Edge) : Bool × List Edge :=
  if xs.contains t then (true, xs.erase t) else (false, xs)

/-! The edge map HashMap<VertexId, BTreeBag<Edge>> is embedded as an
association list with unique keys; iteration order of the HashMap is
arbitrary, here it is the list order. -/

abbrev EdgeMap := List (Nat × List Edge)

def mapLookup : EdgeMap → VertexId → Option (List Edge)
  | [], _ => none
  | (k', bag) :: rest, k => if k' = k then some bag else mapLookup rest k

def mapModify : EdgeMap → VertexId → (List Edge → List Edge) → EdgeMap
  | [], _, _ => []
  | (k', bag) :: rest, k, f =>
      if k' = k then (k', f bag) :: rest else (k', bag) :: mapModify rest k f

def mapRemove : EdgeMap → VertexId → Option (List Edge) × EdgeMap
  | [], _ => (none, [])
  | (k', bag) :: rest, k =>
      if k' = k then (some bag, rest)
      else
        let r := mapRemove rest k
        (r.1, (k', bag) :: r.2)

/-! DirectedGraph (graph/directed_graph.rs): each edge is indexed under both
of its vertices, so one edge appears twice in the map. -/

structure DirectedGraph where
  edge_map : EdgeMap
deriving DecidableEq, Repr

def DirectedGraph.new : DirectedGraph := ⟨[]⟩

def DirectedGraph.vertex_count (g : DirectedGraph) : Nat := g.edge_map.length

def DirectedGraph.is_empty (g : DirectedGraph) : Bool := g.vertex_count == 0

def DirectedGraph.edge_count (g : DirectedGraph) : Nat :=
  (g.edge_map.map (fun p => p.2.length)).sum / 2

def DirectedGraph.contains_vertex (g : DirectedGraph) (vertex_id : VertexId) : Bool :=
  (mapLookup g.edge_map vertex_id).isSome

def DirectedGraph.vertices (g : DirectedGraph) : List VertexId :=
  g.edge_map.map Prod.fst

/-- The incident bag of a vertex; empty when the vertex is absent (models
edge_map.get(&vertex_id) followed by into_iter/flat_map). -/
def bagOf (g : DirectedGraph) (v : VertexId) : List Edge :=
  (mapLookup g.edge_map v).getD []

def DirectedGraph.contains_edge (g : DirectedGraph) (edge : Edge) : Bool :=
  if g.contains_vertex edge.v1 && g.contains_vertex edge.v2 then
    (bagOf g edge.v1).contains edge
  else
    false

def DirectedGraph.edges (g : DirectedGraph) : List Edge :=
  (g.edge_map.map Prod.snd).flatten

def DirectedGraph.outbound_edges (g : DirectedGraph) (vertex_id : VertexId) : List Edge :=
  (bagOf g vertex_id).filter (fun e => e.v1 == vertex_id)

def DirectedGraph.inbound_edges (g : DirectedGraph) (vertex_id : VertexId) : List Edge :=
  (bagOf g vertex_id).filter (fun e => e.v2 == vertex_id)

def DirectedGraph.degree_out (g : DirectedGraph) (vertex_id : VertexId) : Nat :=
  (g.outbound_edges vertex_id).length

def DirectedGraph.degree_in (g : DirectedGraph) (vertex_id : VertexId) : Nat :=
  (g.inbound_edges vertex_id).length

def DirectedGraph.add_vertex (g : DirectedGraph) (vertex_id : VertexId) :
    Bool × DirectedGraph :=
  match mapLookup g.edge_map vertex_id with
  | some _ => (true, g)
  | none => (false, ⟨g.edge_map ++ [(vertex_id, [])]⟩)

/-- Models edge_map.get_mut(&k).map(|bag| bag.remove(&e)): removes one
occurrence of e from the bag of k when that vertex is present. -/
def removeAt (m : EdgeMap) (k : VertexId) (e : Edge) : Bool × EdgeMap :=
  match mapLookup m k with
  | none => (false, m)
  | some bag =>
      let r := bagRemove e bag
      (r.1, mapModify m k (fun _ => r.2))

/-- Loop body of DirectedGraph::remove_vertex: for an edge of the removed
bag, erase it from the bag of each endpoint different from v. -/
def remove_incident (v : VertexId) (m : EdgeMap) (e : Edge) : EdgeMap :=
  let m1 := if e.v1 ≠ v then (removeAt m e.v1 e).2 else m
  if e.v2 ≠ v then (removeAt m1 e.v2 e).2 else m1

def DirectedGraph.remove_vertex (g : DirectedGraph) (vertex_id : VertexId) :
    Bool × DirectedGraph :=
  match mapRemove g.edge_map vertex_id with
  | (some edges, rest) => (true, ⟨edges.foldl (remove_incident vertex_id) rest⟩)
  | (none, _) => (false, g)

def DirectedGraph.add_edge (g : DirectedGraph) (edge : Edge) : Bool × DirectedGraph :=
  if g.contains_edge edge then
    (false, g)
  else
    let g1 := (g.add_vertex edge.v1).2
    let g2 := (g1.add_vertex edge.v2).2
    let m1 := mapModify g2.edge_map edge.v1 (bagInsert edge)
    let m2 := mapModify m1 edge.v2 (bagInsert edge)
    (true, ⟨m2⟩)

def DirectedGraph.remove_edge (g : DirectedGraph) (edge : Edge) : Bool × DirectedGraph :=
  let r1 := removeAt g.edge_map edge.v1 edge
  let r2 := removeAt r1.2 edge.v2 edge
  (r1.1 || r2.1, ⟨r2.2⟩)

/-! GraphCommand (graph/command.rs). -/

inductive GraphCommand where
  | AddVertex (v : VertexId)
  | RemoveVertex (v : VertexId)
  | AddEdge (v1 v2 : VertexId)
  | RemoveEdge (v1 v2 : VertexId)
deriving DecidableEq, Repr

def GraphCommand.revert : GraphCommand → GraphCommand
  | .AddVertex v => .RemoveVertex v
  | .RemoveVertex v => .AddVertex v
  | .AddEdge v1 v2 => .RemoveEdge v1 v2
  | .RemoveEdge v1 v2 => .AddEdge v1 v2

def GraphCommand.apply_to (c : GraphCommand) (g : DirectedGraph) : Bool × DirectedGraph :=
  match c with
  | .AddVertex v => g.add_vertex v
  | .RemoveVertex v => g.remove_vertex v
  | .AddEdge v1 v2 => g.add_edge ⟨v1, v2⟩
  | .RemoveEdge v1 v2 => g.remove_edge ⟨v1, v2⟩

def GraphCommand.apply_commands (commands : List GraphCommand) (g : DirectedGraph) :
    DirectedGraph :=
  commands.foldl (fun g c => (c.apply_to g).2) g

def GraphCommand.as_commands (g : DirectedGraph) : List GraphCommand :=
  g.vertices.map GraphCommand.AddVertex
    ++ g.edges.map (fun e => GraphCommand.AddEdge e.v1 e.v2)

/-! Hash chain (src/src/core/history/hashlist.rs). NodeHash(u64) is embedded
as Nat; the Rc structural sharing has no observable counterpart. -/

abbrev NodeHash := Nat

inductive HashList where
  | Nil
  | Node (hash : NodeHash) (tail : HashList)
deriving DecidableEq, Repr

namespace HashList

def empty : HashList := .Nil

def singleton (hash : NodeHash) : HashList := .Node hash .Nil

def cons (hash : NodeHash) (list : HashList) : HashList := .Node hash list

def first_common : HashList → HashList → Option NodeHash
  | .Nil, _ => none
  | .Node _ _, .Nil => none
  | .Node x xs, .Node y ys =>
      if x = y then some x else first_common xs (.Node y ys)

def is_empty : HashList → Bool
  | .Nil => true
  | .Node _ _ => false

def head_option : HashList → Option NodeHash
  | .Node x _ => some x
  | .Nil => none

def tail_option : HashList → Option HashList
  | .Node _ xs => some xs
  | .Nil => none

def contains (p : NodeHash → Bool) : HashList → Bool
  | .Nil => false
  | .Node x xs => if p x then true else contains p xs

def take_while (p : NodeHash → Bool) : HashList → HashList
  | .Node x xs => if p x then .Node x (take_while p xs) else .Nil
  | .Nil => .Nil

def skip_while (p : NodeHash → Bool) : HashList → HashList
  | .Node x xs => if p x then take_while p xs else xs
  | .Nil => .Nil

/-- Length of a chain (the spec's chain-length observable). -/
def len : HashList → Nat
  | .Nil => 0
  | .Node _ xs => len xs + 1

/-- Models collecting HashListIter to exhaustion: each next() computes
head_option of the current node and then unconditionally takes tail(),
which panics on Nil; the panic is modelled by none. -/
def collectIter : HashList → Option (List NodeHash)
  | .Nil => none
  | .Node x xs => (collectIter xs).map (fun l => x :: l)

end HashList

/-! Repository (src/src/core/history/history.rs). -/

inductive Ref where
  | Detached (hashs : HashList)
  | Tag (hashs : HashList) (name : String)
  | Branch (hashs : HashList) (name : String)
deriving DecidableEq, Repr

def Ref.name : Ref → String
  | .Detached _ => "Detached HEAD"
  | .Tag _ n => n
  | .Branch _ n => n

def Ref.hashs : Ref → HashList
  | .Detached h => h
  | .Tag h _ => h
  | .Branch h _ => h

def Ref.is_empty (r : Ref) : Bool := r.hashs.is_empty

def Ref.is_read_only : Ref → Bool
  | .Tag _ _ => true
  | .Detached _ => true
  | .Branch _ _ => false

structure Author where
  val : String
deriving DecidableEq, Repr

structure Comment where
  val : String
deriving DecidableEq, Repr

structure Commit (Item : Type) where
  author : Author
  comment : Comment
  hash : NodeHash
  item : Item
deriving DecidableEq, Repr

/-- The commit table HashMap<NodeHash, Commit<Item>> as an association list;
insert replaces the entry of an existing key. -/
def commitsInsert {Item : Type} :
    List (NodeHash × Commit Item) → NodeHash → Commit Item → List (NodeHash × Commit Item)
  | [], k, c => [(k, c)]
  | (k', c') :: rest, k, c =>
      if k' = k then (k, c) :: rest else (k', c') :: commitsInsert rest k c

def commitsGet {Item : Type} :
    List (NodeHash × Commit Item) → NodeHash → Option (Commit Item)
  | [], _ => none
  | (k', c) :: rest, k => if k' = k then some c else commitsGet rest k

/-- Repository<Item, ItemHasher>; the pluggable Hasher trait is a function
field. -/
structure Repository (Item : Type) where
  current : Ref
  hasher : Item → Option NodeHash → NodeHash
  refs : List Ref
  commits : List (NodeHash × Commit Item)

variable {Item : Type}

def Repository.new (hasher : Item → Option NodeHash → NodeHash) : Repository Item :=
  let master := Ref.Branch HashList.empty "master"
  { current := master, hasher := hasher, refs := [master], commits := [] }

def Repository.create_commit (r : Repository Item) (item : Item)
    (author : Author) (comment : Comment) : Commit Item :=
  let last_hash := r.current.hashs.head_option
  let commit_hash := r.hasher item last_hash
  { author := author, comment := comment, hash := commit_hash, item := item }

def Repository.commit (r : Repository Item) (item : Item)
    (author : Author) (comment : Comment) : Except String Ref × Repository Item :=
  if r.current.is_read_only then
    (Except.error ("Cannot modify Reference " ++ r.current.name), r)
  else
    let commit := r.create_commit item author comment
    let new_head := HashList.cons commit.hash r.current.hashs
    let r' : Repository Item :=
      { r with
        commits := commitsInsert r.commits commit.hash commit
        current := Ref.Branch new_head r.current.name }
    (Except.ok r'.current, r')

def Repository.find_commit (r : Repository Item) (hash : NodeHash) : Option (Commit Item) :=
  commitsGet r.commits hash

/-- Models Repository::commits: drive the iterator over the current chain and
resolve each hash through the commit table; none models a panic (from
HashListIter::next reaching Nil, or unwrap on a missing hash). -/
def Repository.commits_fn (r : Repository Item) : Option (List (Commit Item)) :=
  (HashList.collectIter r.current.hashs).bind
    (fun hs => hs.mapM (fun h => r.find_commit h))

def Repository.tag (r : Repository Item) (name : String) : Ref × Repository Item :=
  let t := Ref.Tag r.current.hashs name
  (t, { r with refs := r.refs ++ [t] })

def Repository.branch (r : Repository Item) (name : String) : Ref × Repository Item :=
  let b := Ref.Branch r.current.hashs name
  (b, { r with refs := r.refs ++ [b] })

def Repository.find_hashes_from (r : Repository Item) (ref : Ref) (hash : NodeHash) :
    Option HashList :=
  let hashs := ref.hashs.skip_while (fun x => x != hash)
  if hashs.is_empty then none else some hashs

def Repository.checkout_hash (r : Repository Item) (hash : NodeHash) :
    Except String Ref × Repository Item :=
  match r.find_hashes_from r.current hash with
  | none =>
      (Except.error ("Hash " ++ toString hash ++ " couldn't be found on the current Branch/Tag"),
        r)
  | some xs =>
      let r' := { r with current := Ref.Detached xs }
      (Except.ok r'.current, r')

/-! HistorizedGraph (src/core/src/historized_graph.rs): binds a Repository
whose items are batches of commands to a live DirectedGraph. -/

abbrev Commands := List GraphCommand

structure HistorizedGraph where
  repository : Repository Commands
  graph : DirectedGraph

def commit_command (hg : HistorizedGraph) (command : GraphCommand) :
    Except String Ref × Repository Commands :=
  hg.repository.commit [command] ⟨"auto"⟩ ⟨"auto"⟩

def HistorizedGraph.add_vertex (hg : HistorizedGraph) (vertex_id : VertexId) :
    Bool × HistorizedGraph :=
  match commit_command hg (.AddVertex vertex_id) with
  | (.error _, repo) => (false, { repository := repo, graph := hg.graph })
  | (.ok _, repo) =>
      let r := hg.graph.add_vertex vertex_id
      (r.1, { repository := repo, graph := r.2 })

def HistorizedGraph.remove_vertex (hg : HistorizedGraph) (vertex_id : VertexId) :
    Bool × HistorizedGraph :=
  match commit_command hg (.RemoveVertex vertex_id) with
  | (.error _, repo) => (false, { repository := repo, graph := hg.graph })
  | (.ok _, repo) =>
      let r := hg.graph.remove_vertex vertex_id
      (r.1, { repository := repo, graph := r.2 })

def HistorizedGraph.add_edge (hg : HistorizedGraph) (edge : Edge) :
    Bool × HistorizedGraph :=
  match commit_command hg (.AddEdge edge.v1 edge.v2) with
  | (.error _, repo) => (false, { repository := repo, graph := hg.graph })
  | (.ok _, repo) =>
      let r := hg.graph.add_edge edge
      (r.1, { repository := repo, graph := r.2 })

def HistorizedGraph.remove_edge (hg : HistorizedGraph) (edge : Edge) :
    Bool × HistorizedGraph :=
  match commit_command hg (.RemoveEdge edge.v1 edge.v2) with
  | (.error _, repo) => (false, { repository := repo, graph := hg.graph })
  | (.ok _, repo) =>
      let r := hg.graph.remove_edge edge
      (r.1, { repository := repo, graph := r.2 })

/-! Observables used in the statements: per-vertex multiplicity of an edge,
the canonical multiplicity pattern, and the presence predicate. -/

def cntm (m : EdgeMap) (v : VertexId) (e : Edge) : Nat :=
  ((mapLookup m v).getD []).count e

def cnt (g : DirectedGraph) (v : VertexId) (e : Edge) : Nat :=
  cntm g.edge_map v e

def keysOf (m : EdgeMap) : List VertexId := m.map Prod.fst

def mult (e : Edge) (v : VertexId) : Nat :=
  (if e.v1 = v then 1 else 0) + (if e.v2 = v then 1 else 0)

def present (g : DirectedGraph) (e : Edge) : Prop := cnt g e.v1 e ≠ 0

instance (g : DirectedGraph) (e : Edge) : Decidable (present g e) := by
  unfold present
  infer_instance

/-- Invariant of every graph reachable through the public API: keys are
unique, endpoints of present edges are vertices of the graph, and each
edge occurs in each bag with the canonical multiplicity (once per distinct
endpoint, twice in the single bag of a self-loop). -/
structure Inv (g : DirectedGraph) : Prop where
  nodup : (keysOf g.edge_map).Nodup
  endpoints : ∀ e : Edge, present g e →
    g.contains_vertex e.v1 = true ∧ g.contains_vertex e.v2 = true
  counts : ∀ (v : VertexId) (e : Edge), cnt g v e = if present g e then mult e v else 0

/-- Per-step decrement pattern of remove_incident. -/
def contrib (v u : VertexId) (e : Edge) : Nat :=
  (if e.v1 = v then 0 else if u = e.v1 then 1 else 0)
    + (if e.v2 = v then 0 else if u = e.v2 then 1 else 0)

/-! Concrete instances, used to evaluate the operations on closed inputs. -/

/-- A deterministic chain-position-binding hashing strategy. -/
def natHasher : Commands → Option NodeHash → NodeHash :=
  fun _ previous => previous.getD 0 + 1

def freshRepo : Repository Commands := Repository.new natHasher

/-- A repository checked out on a Tag, hence read-only. -/
def tagRepo : Repository Commands :=
  { current := Ref.Tag (HashList.Node 5 HashList.Nil) "v1"
    hasher := natHasher
    refs := [Ref.Branch HashList.Nil "master", Ref.Tag (HashList.Node 5 HashList.Nil) "v1"]
    commits := [] }

def repo1 : Repository Commands :=
  (freshRepo.commit [GraphCommand.AddVertex 5] ⟨"alice"⟩ ⟨"c1"⟩).2

def repo2 : Repository Commands :=
  (repo1.commit [GraphCommand.AddVertex 6] ⟨"alice"⟩ ⟨"c2"⟩).2

def repo3 : Repository Commands :=
  (repo2.commit [GraphCommand.AddVertex 7] ⟨"alice"⟩ ⟨"c3"⟩).2

def hgTag : HistorizedGraph :=
  { repository := tagRepo
    graph := GraphCommand.apply_commands [GraphCommand.AddVertex 7] DirectedGraph.new }

def hgBranch : HistorizedGraph :=
  { repository := freshRepo, graph := DirectedGraph.new }

def chainA : HashList := HashList.Node 1 (HashList.Node 2 HashList.Nil)

def chainB : HashList := HashList.Node 3 (HashList.Node 2 HashList.Nil)

def gEdge12 : DirectedGraph :=
  GraphCommand.apply_commands [GraphCommand.AddEdge 1 2] DirectedGraph.new

def pathGraph : DirectedGraph :=
  GraphCommand.apply_commands [GraphCommand.AddEdge 0 1, GraphCommand.AddEdge 1 2]
    DirectedGraph.new

/-! Lemmas about the association-list map. -/

theorem keysOf_cons_eq (p : VertexId × List Edge) (m : EdgeMap) :
    keysOf (p :: m) = p.1 :: keysOf m := rfl

theorem mapLookup_eq_none_iff (m : EdgeMap) (k : VertexId) :
    mapLookup m k = none ↔ k ∉ keysOf m := by
  induction m with
  | nil => simp [mapLookup, keysOf]
  | cons p rest ih =>
    obtain ⟨k', bag⟩ := p
    by_cases h : k' = k
    · subst h
      simp [mapLookup, keysOf]
    · rw [keysOf_cons_eq]
      simp only [mapLookup, if_neg h, List.mem_cons]
      rw [ih]
      have hne : ¬ k = k' := fun hh => h hh.symm
      simp [hne]

theorem mapLookup_isSome_iff (m : EdgeMap) (k : VertexId) :
    (mapLookup m k).isSome = true ↔ k ∈ keysOf m := by
  rw [← Decidable.not_not (p := k ∈ keysOf m), ← mapLookup_eq_none_iff]
  cases mapLookup m k <;> simp

theorem mapLookup_mem (m : EdgeMap) (k : VertexId) (bag : List Edge)
    (h : mapLookup m k = some bag) : (k, bag) ∈ m := by
  induction m with
  | nil => simp [mapLookup] at h
  | cons p rest ih =>
    obtain ⟨k', bag'⟩ := p
    by_cases hk : k' = k
    · subst hk
      simp [mapLookup] at h
      simp [h]
    · simp only [mapLookup, if_neg hk] at h
      exact List.mem_cons_of_mem _ (ih h)

theorem mem_mapLookup (m : EdgeMap) (k : VertexId) (bag : List Edge)
    (hnd : (keysOf m).Nodup) (h : (k, bag) ∈ m) : mapLookup m k = some bag := by
  induction m with
  | nil => simp at h
  | cons p rest ih =>
    obtain ⟨k', bag'⟩ := p
    rw [keysOf_cons_eq] at hnd
    rcases List.mem_cons.mp h with h1 | h2
    · cases h1
      simp [mapLookup]
    · have hk : k' ≠ k := by
        intro hkk
        subst hkk
        exact (List.nodup_cons.mp hnd).1 (List.mem_map.mpr ⟨(k', bag), h2, rfl⟩)
      simp only [mapLookup, if_neg hk]
      exact ih (List.nodup_cons.mp hnd).2 h2

theorem mapLookup_append_single (m : EdgeMap) (v u : VertexId) :
    v ∉ keysOf m →
    mapLookup (m ++ [(v, [])]) u = if u = v then some [] else mapLookup m u := by
  induction m with
  | nil =>
    intro _
    by_cases h : u = v
    · simp [mapLookup, h]
    · have h' : ¬ v = u := fun hh => h hh.symm
      simp [mapLookup, h, h']
  | cons p rest ih =>
    intro hv
    obtain ⟨k', bag⟩ := p
    have hv' : v ∉ keysOf rest := by
      intro hmem
      exact hv (by simp [keysOf_cons_eq, hmem])
    have hkv : k' ≠ v := by
      intro hh
      exact hv (by simp [keysOf_cons_eq, hh])
    by_cases h : k' = u
    · subst h
      have h1 : ¬ k' = v := hkv
      simp [mapLookup, List.cons_append, h1]
    · simp only [List.cons_append, mapLookup, if_neg h]
      exact ih hv'

theorem keysOf_append_single (m : EdgeMap) (v : VertexId) :
    keysOf (m ++ [(v, [])]) = keysOf m ++ [v] := by
  simp [keysOf]

theorem mapLookup_mapModify (m : EdgeMap) (k u : VertexId) (f : List Edge → List Edge) :
    mapLookup (mapModify m k f) u =
      if u = k then (mapLookup m k).map f else mapLookup m u := by
  induction m with
  | nil => by_cases h : u = k <;> simp [mapLookup, mapModify, h]
  | cons p rest ih =>
    obtain ⟨k', bag⟩ := p
    by_cases hk : k' = k
    · subst hk
      by_cases hu : k' = u
      · subst hu
        simp [mapLookup, mapModify]
      · have hu' : ¬ u = k' := fun hh => hu hh.symm
        simp [mapLookup, mapModify, hu, hu']
    · by_cases hu : k' = u
      · have h3 : ¬ u = k := fun hh => hk (hu.trans hh)
        simp [mapLookup, mapModify, hk, hu, h3]
      · simp only [mapModify, if_neg hk, mapLookup, if_neg hu]
        exact ih

theorem keysOf_mapModify (m : EdgeMap) (k : VertexId) (f : List Edge → List Edge) :
    keysOf (mapModify m k f) = keysOf m := by
  induction m with
  | nil => rfl
  | cons p rest ih =>
    obtain ⟨k', bag⟩ := p
    by_cases hk : k' = k <;> simp [mapModify, keysOf_cons_eq, hk, ih]

theorem mapRemove_fst (m : EdgeMap) (k : VertexId) :
    (mapRemove m k).1 = mapLookup m k := by
  induction m with
  | nil => rfl
  | cons p rest ih =>
    obtain ⟨k', bag⟩ := p
    by_cases hk : k' = k <;> simp [mapRemove, mapLookup, hk, ih]

theorem keysOf_mapRemove_sublist (m : EdgeMap) (k : VertexId) :
    (keysOf (mapRemove m k).2).Sublist (keysOf m) := by
  induction m with
  | nil => simp [mapRemove, keysOf]
  | cons p rest ih =>
    obtain ⟨k', bag⟩ := p
    by_cases hk : k' = k
    · simp only [mapRemove, if_pos hk]
      rw [keysOf_cons_eq]
      exact (List.sublist_cons_self _ _)
    · simp only [mapRemove, if_neg hk]
      rw [keysOf_cons_eq, keysOf_cons_eq]
      exact List.Sublist.cons₂ _ ih

theorem mapLookup_mapRemove (m : EdgeMap) (k u : VertexId)
    (hnd : (keysOf m).Nodup) :
    mapLookup (mapRemove m k).2 u = if u = k then none else mapLookup m u := by
  induction m with
  | nil => by_cases h : u = k <;> simp [mapRemove, mapLookup, h]
  | cons p rest ih =>
    obtain ⟨k', bag⟩ := p
    rw [keysOf_cons_eq] at hnd
    have hnd' : (keysOf rest).Nodup := (List.nodup_cons.mp hnd).2
    have hknotin : k' ∉ keysOf rest := by
      have h0 := (List.nodup_cons.mp hnd).1
      simpa using h0
    by_cases hk : k' = k
    · subst hk
      by_cases hu : u = k'
      · subst hu
        simp only [mapRemove, if_pos rfl, if_pos rfl]
        exact (mapLookup_eq_none_iff _ _).mpr hknotin
      · have hu2 : ¬ k' = u := fun hh => hu hh.symm
        simp [mapRemove, mapLookup, hu, hu2]
    · by_cases hu : u = k
      · subst hu
        have h3 : ¬ k' = u := hk
        simp only [mapRemove, if_neg hk, mapLookup, if_neg h3, if_pos rfl]
        rw [ih hnd']
        simp
      · by_cases hku : k' = u
        · subst hku
          simp [mapRemove, mapLookup, hk, hu]
        · simp only [mapRemove, if_neg hk, mapLookup, if_neg hku]
          exact ih hnd'

/-! Lemmas about the bag. -/

theorem count_bagInsert (t x : Edge) (l : List Edge) :
    (bagInsert t l).count x = l.count x + if x = t then 1 else 0 := by
  induction l with
  | nil => by_cases h : x = t <;> simp [bagInsert, List.count_cons, h]
  | cons y ys ih =>
    by_cases hle : Edge.le t y
    · simp only [bagInsert, if_pos hle]
      by_cases h : x = t <;> simp [List.count_cons, h] <;> omega
    · simp only [bagInsert, if_neg hle]
      rw [List.count_cons, List.count_cons, ih]
      omega

theorem count_bagRemove (t x : Edge) (l : List Edge) :
    ((bagRemove t l).2).count x = l.count x - if x = t then 1 else 0 := by
  by_cases hc : l.contains t
  · simp only [bagRemove, if_pos hc]
    rw [List.count_erase]
    by_cases h : x = t
    · subst h
      simp
    · have h2 : ¬ t = x := fun hh => h hh.symm
      simp [h, h2]
  · simp only [bagRemove, if_neg hc]
    by_cases h : x = t
    · subst h
      have : x ∉ l := by
        intro hmem
        exact hc (List.elem_iff.mpr hmem)
      rw [List.count_eq_zero.mpr this]
      simp
    · simp [h]

theorem bagRemove_fst (t : Edge) (l : List Edge) :
    (bagRemove t l).1 = l.contains t := by
  by_cases hm : t ∈ l <;> simp [bagRemove, hm]

/-! Lemmas about the graph operations. -/

theorem contains_vertex_eq (g : DirectedGraph) (v : VertexId) :
    g.contains_vertex v = (mapLookup g.edge_map v).isSome := rfl

theorem mult_eq_ite (e : Edge) (u : VertexId) :
    mult e u = (if u = e.v1 then 1 else 0) + (if u = e.v2 then 1 else 0) := by
  unfold mult
  congr 1
  · by_cases a : u = e.v1
    · simp [a]
    · have a2 : ¬ e.v1 = u := fun hh => a hh.symm
      simp [a, a2]
  · by_cases b : u = e.v2
    · simp [b]
    · have b2 : ¬ e.v2 = u := fun hh => b hh.symm
      simp [b, b2]

theorem cnt_bagOf (g : DirectedGraph) (v : VertexId) (e : Edge) :
    cnt g v e = (bagOf g v).count e := rfl

theorem cnt_of_lookup_none (g : DirectedGraph) (v : VertexId) (e : Edge)
    (h : mapLookup g.edge_map v = none) : cnt g v e = 0 := by
  simp [cnt, cntm, h]

theorem add_vertex_fst (g : DirectedGraph) (v : VertexId) :
    (g.add_vertex v).1 = g.contains_vertex v := by
  unfold DirectedGraph.add_vertex
  rw [contains_vertex_eq]
  cases mapLookup g.edge_map v <;> simp

theorem add_vertex_lookup (g : DirectedGraph) (v u : VertexId) :
    mapLookup (g.add_vertex v).2.edge_map u =
      if u = v then some ((mapLookup g.edge_map v).getD [])
      else mapLookup g.edge_map u := by
  unfold DirectedGraph.add_vertex
  cases h : mapLookup g.edge_map v with
  | some bag =>
    by_cases hu : u = v
    · subst hu
      simp [h]
    · simp [h, hu]
  | none =>
    have hv : v ∉ keysOf g.edge_map := (mapLookup_eq_none_iff _ _).mp h
    simp only []
    rw [mapLookup_append_single _ _ _ hv]
    simp

theorem cnt_add_vertex (g : DirectedGraph) (v u : VertexId) (x : Edge) :
    cnt (g.add_vertex v).2 u x = cnt g u x := by
  unfold cnt cntm
  rw [add_vertex_lookup]
  by_cases hu : u = v
  · subst hu
    cases h : mapLookup g.edge_map u <;> simp [h]
  · simp [hu]

theorem contains_vertex_add_vertex (g : DirectedGraph) (v u : VertexId) :
    (g.add_vertex v).2.contains_vertex u =
      (g.contains_vertex u || decide (u = v)) := by
  rw [contains_vertex_eq, contains_vertex_eq, add_vertex_lookup]
  by_cases hu : u = v
  · subst hu
    simp
  · simp [hu]

theorem nodup_add_vertex (g : DirectedGraph) (v : VertexId)
    (hnd : (keysOf g.edge_map).Nodup) :
    (keysOf (g.add_vertex v).2.edge_map).Nodup := by
  unfold DirectedGraph.add_vertex
  cases h : mapLookup g.edge_map v with
  | some bag => simpa using hnd
  | none =>
    have hv : v ∉ keysOf g.edge_map := (mapLookup_eq_none_iff _ _).mp h
    simp only []
    rw [show keysOf (⟨g.edge_map ++ [(v, [])]⟩ : DirectedGraph).edge_map
          = keysOf g.edge_map ++ [v] from keysOf_append_single _ _]
    rw [List.nodup_append]
    refine ⟨hnd, List.nodup_singleton v, ?_⟩
    intro a ha hb
    simp at hb
    subst hb
    exact hv ha

theorem cntm_removeAt (m : EdgeMap) (k : VertexId) (e x : Edge) (u : VertexId) :
    cntm (removeAt m k e).2 u x = cntm m u x - if x = e ∧ u = k then 1 else 0 := by
  unfold removeAt
  cases h : mapLookup m k with
  | none =>
    by_cases hx : x = e ∧ u = k
    · obtain ⟨hx1, hx2⟩ := hx
      subst hx1
      subst hx2
      simp [cntm, h]
    · simp [hx]
  | some bag =>
    simp only []
    unfold cntm
    rw [mapLookup_mapModify]
    by_cases hu : u = k
    · subst hu
      rw [h]
      simp only [Option.map_some', Option.getD_some, eq_self_iff_true, and_true, if_true]
      rw [count_bagRemove]
    · simp [hu]

theorem keysOf_removeAt (m : EdgeMap) (k : VertexId) (e : Edge) :
    keysOf (removeAt m k e).2 = keysOf m := by
  unfold removeAt
  cases h : mapLookup m k with
  | none => rfl
  | some bag => simp [keysOf_mapModify]

theorem isSome_removeAt (m : EdgeMap) (k : VertexId) (e : Edge) (u : VertexId) :
    (mapLookup (removeAt m k e).2 u).isSome = (mapLookup m u).isSome := by
  unfold removeAt
  cases h : mapLookup m k with
  | none => rfl
  | some bag =>
    simp only []
    rw [mapLookup_mapModify]
    by_cases hu : u = k
    · subst hu
      rw [h]
      simp
    · simp [hu]

theorem cntm_mapModify_bagInsert (m : EdgeMap) (k : VertexId) (e x : Edge) (u : VertexId)
    (hk : k ∈ keysOf m) :
    cntm (mapModify m k (bagInsert e)) u x =
      cntm m u x + if x = e ∧ u = k then 1 else 0 := by
  unfold cntm
  rw [mapLookup_mapModify]
  by_cases hu : u = k
  · subst hu
    obtain ⟨bag, hbag⟩ := Option.isSome_iff_exists.mp ((mapLookup_isSome_iff _ _).mpr hk)
    rw [hbag]
    simp only [Option.map_some', Option.getD_some, eq_self_iff_true, and_true, if_true]
    rw [count_bagInsert]
  · simp [hu]

theorem isSome_mapModify (m : EdgeMap) (k : VertexId) (f : List Edge → List Edge)
    (u : VertexId) :
    (mapLookup (mapModify m k f) u).isSome = (mapLookup m u).isSome := by
  rw [mapLookup_mapModify]
  by_cases hu : u = k
  · subst hu
    cases mapLookup m u <;> simp
  · simp [hu]

theorem add_edge_contained (g : DirectedGraph) (e : Edge)
    (h : g.contains_edge e = true) : g.add_edge e = (false, g) := by
  unfold DirectedGraph.add_edge
  rw [if_pos h]

theorem cnt_add_edge_new (g : DirectedGraph) (e : Edge)
    (h : g.contains_edge e = false) (u : VertexId) (x : Edge) :
    cnt (g.add_edge e).2 u x = cnt g u x + if x = e then mult e u else 0 := by
  unfold DirectedGraph.add_edge
  rw [if_neg (by simp [h])]
  simp only []
  have hv1 : e.v1 ∈ keysOf ((g.add_vertex e.v1).2.add_vertex e.v2).2.edge_map := by
    rw [← mapLookup_isSome_iff, ← contains_vertex_eq]
    rw [contains_vertex_add_vertex, contains_vertex_add_vertex]
    simp
  have hv2 : e.v2 ∈ keysOf (mapModify ((g.add_vertex e.v1).2.add_vertex e.v2).2.edge_map
      e.v1 (bagInsert e)) := by
    rw [keysOf_mapModify, ← mapLookup_isSome_iff, ← contains_vertex_eq]
    rw [contains_vertex_add_vertex]
    simp
  show cntm (mapModify (mapModify ((g.add_vertex e.v1).2.add_vertex e.v2).2.edge_map
      e.v1 (bagInsert e)) e.v2 (bagInsert e)) u x = _
  rw [cntm_mapModify_bagInsert _ _ _ _ _ hv2, cntm_mapModify_bagInsert _ _ _ _ _ hv1]
  have hcnt : cntm ((g.add_vertex e.v1).2.add_vertex e.v2).2.edge_map u x = cnt g u x := by
    show cnt ((g.add_vertex e.v1).2.add_vertex e.v2).2 u x = cnt g u x
    rw [cnt_add_vertex, cnt_add_vertex]
  rw [hcnt]
  by_cases hx : x = e
  · subst hx
    rw [mult_eq_ite]
    simp only [eq_self_iff_true, true_and, if_true]
    rw [Nat.add_assoc]
  · simp [hx]

theorem contains_vertex_add_edge_new (g : DirectedGraph) (e : Edge)
    (h : g.contains_edge e = false) (u : VertexId) :
    (g.add_edge e).2.contains_vertex u =
      (g.contains_vertex u || decide (u = e.v1) || decide (u = e.v2)) := by
  unfold DirectedGraph.add_edge
  rw [if_neg (by simp [h])]
  simp only []
  rw [contains_vertex_eq]
  show (mapLookup (mapModify (mapModify ((g.add_vertex e.v1).2.add_vertex e.v2).2.edge_map
      e.v1 (bagInsert e)) e.v2 (bagInsert e)) u).isSome = _
  rw [isSome_mapModify, isSome_mapModify, ← contains_vertex_eq]
  rw [contains_vertex_add_vertex, contains_vertex_add_vertex]

theorem nodup_add_edge (g : DirectedGraph) (e : Edge)
    (hnd : (keysOf g.edge_map).Nodup) :
    (keysOf (g.add_edge e).2.edge_map).Nodup := by
  unfold DirectedGraph.add_edge
  by_cases h : g.contains_edge e
  · rw [if_pos h]
    exact hnd
  · rw [if_neg h]
    simp only []
    show (keysOf (mapModify (mapModify ((g.add_vertex e.v1).2.add_vertex e.v2).2.edge_map
        e.v1 (bagInsert e)) e.v2 (bagInsert e))).Nodup
    rw [keysOf_mapModify, keysOf_mapModify]
    exact nodup_add_vertex _ _ (nodup_add_vertex _ _ hnd)

theorem cnt_remove_edge (g : DirectedGraph) (e : Edge) (u : VertexId) (x : Edge) :
    cnt (g.remove_edge e).2 u x = cnt g u x - if x = e then mult e u else 0 := by
  unfold DirectedGraph.remove_edge
  simp only []
  show cntm (removeAt (removeAt g.edge_map e.v1 e).2 e.v2 e).2 u x = _
  rw [cntm_removeAt, cntm_removeAt]
  by_cases hx : x = e
  · subst hx
    rw [mult_eq_ite]
    simp only [eq_self_iff_true, true_and, if_true]
    rw [Nat.sub_sub]
    rfl
  · simp [hx, cnt]

theorem keysOf_remove_edge (g : DirectedGraph) (e : Edge) :
    keysOf (g.remove_edge e).2.edge_map = keysOf g.edge_map := by
  unfold DirectedGraph.remove_edge
  simp only []
  show keysOf (removeAt (removeAt g.edge_map e.v1 e).2 e.v2 e).2 = _
  rw [keysOf_removeAt, keysOf_removeAt]

theorem contains_vertex_remove_edge (g : DirectedGraph) (e : Edge) (u : VertexId) :
    (g.remove_edge e).2.contains_vertex u = g.contains_vertex u := by
  rw [contains_vertex_eq, contains_vertex_eq]
  unfold DirectedGraph.remove_edge
  simp only []
  show (mapLookup (removeAt (removeAt g.edge_map e.v1 e).2 e.v2 e).2 u).isSome = _
  rw [isSome_removeAt, isSome_removeAt]

/-! Lemmas about remove_vertex. -/

theorem keysOf_remove_incident (v : VertexId) (m : EdgeMap) (e : Edge) :
    keysOf (remove_incident v m e) = keysOf m := by
  unfold remove_incident
  by_cases h1 : e.v1 ≠ v <;> by_cases h2 : e.v2 ≠ v <;>
    simp [h1, h2, keysOf_removeAt]

theorem isSome_remove_incident (v : VertexId) (m : EdgeMap) (e : Edge) (u : VertexId) :
    (mapLookup (remove_incident v m e) u).isSome = (mapLookup m u).isSome := by
  unfold remove_incident
  by_cases h1 : e.v1 ≠ v <;> by_cases h2 : e.v2 ≠ v <;>
    simp [h1, h2, isSome_removeAt]

theorem cntm_remove_incident (v : VertexId) (m : EdgeMap) (e x : Edge) (u : VertexId) :
    cntm (remove_incident v m e) u x =
      cntm m u x - if x = e then contrib v u e else 0 := by
  unfold remove_incident contrib
  by_cases h1 : e.v1 ≠ v
  · by_cases h2 : e.v2 ≠ v
    · simp only [if_pos h1, if_pos h2]
      rw [cntm_removeAt, cntm_removeAt]
      by_cases hx : x = e
      · subst hx
        simp only [eq_self_iff_true, true_and, if_true]
        rw [Nat.sub_sub]
        have hs : (if u = x.v1 then (1 : Nat) else 0) + (if u = x.v2 then 1 else 0)
            = (if x.v1 = v then 0 else if u = x.v1 then (1 : Nat) else 0)
              + (if x.v2 = v then 0 else if u = x.v2 then 1 else 0) := by
          simp [h1, h2]
        rw [hs]
      · simp [hx]
    · have h2' : e.v2 = v := not_not.mp h2
      simp only [if_pos h1, if_neg h2]
      rw [cntm_removeAt]
      by_cases hx : x = e
      · subst hx
        simp only [eq_self_iff_true, true_and, if_true]
        have hs : (if u = x.v1 then (1 : Nat) else 0)
            = (if x.v1 = v then 0 else if u = x.v1 then (1 : Nat) else 0)
              + (if x.v2 = v then 0 else if u = x.v2 then 1 else 0) := by
          simp [h1, h2']
        rw [← hs]
      · simp [hx]
  · have h1' : e.v1 = v := not_not.mp h1
    by_cases h2 : e.v2 ≠ v
    · simp only [if_neg h1, if_pos h2]
      rw [cntm_removeAt]
      by_cases hx : x = e
      · subst hx
        simp only [eq_self_iff_true, true_and, if_true]
        have hs : (if u = x.v2 then (1 : Nat) else 0)
            = (if x.v1 = v then 0 else if u = x.v1 then (1 : Nat) else 0)
              + (if x.v2 = v then 0 else if u = x.v2 then 1 else 0) := by
          simp [h1', h2]
        rw [← hs]
      · simp [hx]
    · have h2' : e.v2 = v := not_not.mp h2
      simp only [if_neg h1, if_neg h2]
      by_cases hx : x = e
      · subst hx
        simp [h1', h2']
      · simp [hx]

theorem keysOf_fold_remove_incident (v : VertexId) :
    ∀ (L : List Edge) (m : EdgeMap),
      keysOf (L.foldl (remove_incident v) m) = keysOf m
  | [], _ => rfl
  | e :: L, m => by
    rw [List.foldl_cons, keysOf_fold_remove_incident v L, keysOf_remove_incident]

theorem isSome_fold_remove_incident (v : VertexId) :
    ∀ (L : List Edge) (m : EdgeMap) (u : VertexId),
      (mapLookup (L.foldl (remove_incident v) m) u).isSome = (mapLookup m u).isSome
  | [], _, _ => rfl
  | e :: L, m, u => by
    rw [List.foldl_cons, isSome_fold_remove_incident v L, isSome_remove_incident]

theorem cntm_fold_remove_incident (v : VertexId) :
    ∀ (L : List Edge) (m : EdgeMap) (u : VertexId) (x : Edge),
      cntm (L.foldl (remove_incident v) m) u x =
        cntm m u x - L.count x * contrib v u x
  | [], m, u, x => by simp
  | e :: L, m, u, x => by
    rw [List.foldl_cons, cntm_fold_remove_incident v L, cntm_remove_incident]
    rw [List.count_cons]
    by_cases hx : x = e
    · subst hx
      simp only [eq_self_iff_true, if_true, beq_self_eq_true]
      rw [Nat.sub_sub, Nat.add_mul, one_mul,
        Nat.add_comm (contrib v u x) (List.count x L * contrib v u x)]
    · have hex : ¬ e = x := fun hh => hx hh.symm
      simp [hx, hex]

theorem remove_vertex_fst (g : DirectedGraph) (v : VertexId) :
    (g.remove_vertex v).1 = g.contains_vertex v := by
  rcases hr : mapRemove g.edge_map v with ⟨o, rest⟩
  have hf := mapRemove_fst g.edge_map v
  rw [hr] at hf
  unfold DirectedGraph.remove_vertex
  rw [hr, contains_vertex_eq, ← hf]
  cases o <;> simp

theorem remove_vertex_absent (g : DirectedGraph) (v : VertexId)
    (h : g.contains_vertex v = false) : g.remove_vertex v = (false, g) := by
  have hnone : mapLookup g.edge_map v = none := by
    rw [contains_vertex_eq] at h
    cases hh : mapLookup g.edge_map v
    · rfl
    · rw [hh] at h
      simp at h
  rcases hr : mapRemove g.edge_map v with ⟨o, rest⟩
  have ho : o = none := by
    have hf := mapRemove_fst g.edge_map v
    rw [hr] at hf
    simpa [hnone] using hf
  subst ho
  unfold DirectedGraph.remove_vertex
  rw [hr]

theorem remove_vertex_present (g : DirectedGraph) (v : VertexId) (bag : List Edge)
    (hnd : (keysOf g.edge_map).Nodup)
    (h : mapLookup g.edge_map v = some bag) :
    (g.remove_vertex v).1 = true ∧
    (∀ (u : VertexId) (x : Edge),
      cnt (g.remove_vertex v).2 u x =
        (if u = v then 0 else cnt g u x) - bag.count x * contrib v u x) ∧
    ((g.remove_vertex v).2.contains_vertex v = false) ∧
    (∀ u : VertexId, u ≠ v →
      (g.remove_vertex v).2.contains_vertex u = g.contains_vertex u) ∧
    (keysOf (g.remove_vertex v).2.edge_map).Nodup := by
  rcases hr : mapRemove g.edge_map v with ⟨o, rest⟩
  have ho : o = some bag := by
    have hf := mapRemove_fst g.edge_map v
    rw [hr] at hf
    simpa [h] using hf
  subst ho
  have hres : g.remove_vertex v = (true, ⟨bag.foldl (remove_incident v) rest⟩) := by
    unfold DirectedGraph.remove_vertex
    rw [hr]
  rw [hres]
  have hlook : ∀ u, mapLookup rest u = if u = v then none else mapLookup g.edge_map u := by
    intro u
    have hx := mapLookup_mapRemove g.edge_map v u hnd
    rw [hr] at hx
    exact hx
  refine ⟨rfl, ?_, ?_, ?_, ?_⟩
  · intro u x
    show cntm (bag.foldl (remove_incident v) rest) u x = _
    rw [cntm_fold_remove_incident]
    congr 1
    unfold cntm
    rw [hlook u]
    by_cases hu : u = v
    · simp [hu]
    · simp [hu, cnt, cntm]
  · rw [contains_vertex_eq]
    show (mapLookup (bag.foldl (remove_incident v) rest) v).isSome = false
    rw [isSome_fold_remove_incident, hlook v]
    simp
  · intro u hu
    rw [contains_vertex_eq, contains_vertex_eq]
    show (mapLookup (bag.foldl (remove_incident v) rest) u).isSome = _
    rw [isSome_fold_remove_incident, hlook u]
    simp [hu]
  · show (keysOf (bag.foldl (remove_incident v) rest)).Nodup
    rw [keysOf_fold_remove_incident]
    have hsub := keysOf_mapRemove_sublist g.edge_map v
    rw [hr] at hsub
    exact hsub.nodup hnd

/-! The invariant is established by the empty graph and preserved by every
operation of the public API. -/

theorem contains_edge_iff_present (g : DirectedGraph) (hI : Inv g) (e : Edge) :
    g.contains_edge e = true ↔ present g e := by
  constructor
  · intro hc
    unfold DirectedGraph.contains_edge at hc
    by_cases hv : g.contains_vertex e.v1 && g.contains_vertex e.v2
    · rw [if_pos hv] at hc
      have hmem : e ∈ bagOf g e.v1 := by simpa using hc
      unfold present
      rw [cnt_bagOf]
      have hcc := List.count_pos_iff.mpr hmem
      omega
    · rw [if_neg hv] at hc
      cases hc
  · intro hp
    obtain ⟨h1, h2⟩ := hI.endpoints e hp
    unfold DirectedGraph.contains_edge
    rw [h1, h2]
    have hmem : e ∈ bagOf g e.v1 := by
      have hcc : 0 < (bagOf g e.v1).count e := Nat.pos_of_ne_zero hp
      exact List.count_pos_iff.mp hcc
    simpa using hmem

theorem cnt_eq_zero_of_not_present (g : DirectedGraph) (hI : Inv g) (e : Edge)
    (hnp : ¬ present g e) (u : VertexId) : cnt g u e = 0 := by
  rw [hI.counts u e, if_neg hnp]

theorem Inv_add_vertex (g : DirectedGraph) (v : VertexId) (hI : Inv g) :
    Inv (g.add_vertex v).2 := by
  refine ⟨nodup_add_vertex g v hI.nodup, ?_, ?_⟩
  · intro e hp
    have hp' : present g e := by
      unfold present at hp ⊢
      rw [cnt_add_vertex] at hp
      exact hp
    obtain ⟨h1, h2⟩ := hI.endpoints e hp'
    rw [contains_vertex_add_vertex, contains_vertex_add_vertex, h1, h2]
    simp
  · intro u e
    rw [cnt_add_vertex]
    have hiff : present (g.add_vertex v).2 e ↔ present g e := by
      unfold present
      rw [cnt_add_vertex]
    rw [if_congr hiff rfl rfl]
    exact hI.counts u e

theorem Inv_add_edge (g : DirectedGraph) (e : Edge) (hI : Inv g) :
    Inv (g.add_edge e).2 := by
  by_cases h : g.contains_edge e = true
  · rw [add_edge_contained g e h]
    exact hI
  · have h' : g.contains_edge e = false := by
      cases hce : g.contains_edge e
      · rfl
      · exact absurd hce h
    have hnp : ¬ present g e := fun hp =>
      h ((contains_edge_iff_present g hI e).mpr hp)
    have hz : ∀ u, cnt g u e = 0 := cnt_eq_zero_of_not_present g hI e hnp
    have hc := cnt_add_edge_new g e h'
    have hcv := contains_vertex_add_edge_new g e h'
    refine ⟨nodup_add_edge g e hI.nodup, ?_, ?_⟩
    · intro x hp
      by_cases hx : x = e
      · subst hx
        constructor
        · rw [hcv]
          simp
        · rw [hcv]
          simp
      · have hpx : present g x := by
          unfold present at hp ⊢
          rw [hc] at hp
          simpa [hx] using hp
        obtain ⟨h1, h2⟩ := hI.endpoints x hpx
        rw [hcv, hcv, h1, h2]
        simp
    · intro u x
      rw [hc u x]
      by_cases hx : x = e
      · subst hx
        have hp' : present (g.add_edge x).2 x := by
          unfold present
          rw [hc, hz x.v1]
          unfold mult
          simp
        rw [if_pos hp', hz u]
        simp
      · have hpiff : present (g.add_edge e).2 x ↔ present g x := by
          unfold present
          rw [hc]
          simp [hx]
        rw [if_congr hpiff rfl rfl, hI.counts u x]
        simp [hx]

theorem Inv_remove_edge (g : DirectedGraph) (e : Edge) (hI : Inv g) :
    Inv (g.remove_edge e).2 := by
  have hc := cnt_remove_edge g e
  refine ⟨?_, ?_, ?_⟩
  · have hk := keysOf_remove_edge g e
    rw [hk]
    exact hI.nodup
  · intro x hp
    have hpx : present g x := by
      unfold present at hp ⊢
      rw [hc] at hp
      intro h0
      apply hp
      rw [h0]
      simp
    obtain ⟨h1, h2⟩ := hI.endpoints x hpx
    rw [contains_vertex_remove_edge, contains_vertex_remove_edge]
    exact ⟨h1, h2⟩
  · intro u x
    rw [hc u x]
    by_cases hx : x = e
    · subst hx
      by_cases hp : present g x
      · have hz : ∀ w, cnt g w x = mult x w := fun w => by
          rw [hI.counts w x, if_pos hp]
        have hp' : ¬ present (g.remove_edge x).2 x := by
          unfold present
          rw [hc, hz x.v1]
          simp
        rw [if_neg hp', hz u]
        simp
      · have hz := cnt_eq_zero_of_not_present g hI x hp
        have hp' : ¬ present (g.remove_edge x).2 x := by
          unfold present
          rw [hc, hz x.v1]
          simp
        rw [if_neg hp', hz u]
        simp
    · have hpiff : present (g.remove_edge e).2 x ↔ present g x := by
        unfold present
        rw [hc]
        simp [hx]
      rw [if_congr hpiff rfl rfl, hI.counts u x]
      simp [hx]

theorem Inv_remove_vertex (g : DirectedGraph) (v : VertexId) (hI : Inv g) :
    Inv (g.remove_vertex v).2 := by
  by_cases hcv : g.contains_vertex v = true
  · obtain ⟨bag, hbag⟩ := Option.isSome_iff_exists.mp (contains_vertex_eq g v ▸ hcv)
    obtain ⟨-, hcnt, hcvv, hcvu, hnd'⟩ := remove_vertex_present g v bag hI.nodup hbag
    have hbagcount : ∀ x, bag.count x = cnt g v x := by
      intro x
      unfold cnt cntm
      rw [hbag]
      rfl
    have key : ∀ (u : VertexId) (x : Edge),
        cnt (g.remove_vertex v).2 u x =
          (if u = v then 0 else (if present g x then mult x u else 0))
            - (if present g x then mult x v else 0) * contrib v u x := by
      intro u x
      rw [hcnt u x, hbagcount x, hI.counts v x]
      congr 1
      by_cases hu : u = v
      · simp [hu]
      · simp [hu, hI.counts u x]
    have hpres : ∀ x : Edge,
        present (g.remove_vertex v).2 x ↔
          (present g x ∧ ¬ x.v1 = v ∧ ¬ x.v2 = v) := by
      rintro ⟨a, b⟩
      show cnt (g.remove_vertex v).2 a ⟨a, b⟩ ≠ 0 ↔ _
      rw [key a ⟨a, b⟩]
      by_cases hp : present g ⟨a, b⟩
      · simp only [hp, if_true, true_and]
        unfold mult contrib
        dsimp only
        clear hp key hbagcount hnd' hcvu hcvv hcnt hbag hcv hI
        simp only [VertexId] at *
        split_ifs <;> omega
      · simp only [if_neg hp]
        simp [hp]
    refine ⟨hnd', ?_, ?_⟩
    · intro x hp'
      rw [hpres x] at hp'
      obtain ⟨hp, h1, h2⟩ := hp'
      obtain ⟨he1, he2⟩ := hI.endpoints x hp
      rw [hcvu x.v1 h1, hcvu x.v2 h2]
      exact ⟨he1, he2⟩
    · intro u x
      obtain ⟨a, b⟩ := x
      rw [key u ⟨a, b⟩, if_congr (hpres ⟨a, b⟩) rfl rfl]
      by_cases hp : present g ⟨a, b⟩
      · simp only [hp, if_true, true_and]
        unfold mult contrib
        dsimp only
        clear hp hpres key hbagcount hnd' hcvu hcvv hcnt hbag hcv hI
        simp only [VertexId] at *
        split_ifs <;> omega
      · simp only [if_neg hp]
        simp [hp]
  · have h' : g.contains_vertex v = false := by
      cases hh : g.contains_vertex v
      · rfl
      · exact absurd hh hcv
    rw [remove_vertex_absent g v h']
    exact hI

theorem Inv_new : Inv DirectedGraph.new := by
  refine ⟨?_, ?_, ?_⟩
  · simp [DirectedGraph.new, keysOf]
  · intro e hp
    unfold present cnt cntm at hp
    simp [DirectedGraph.new, mapLookup] at hp
  · intro u e
    have hz : cnt DirectedGraph.new u e = 0 := by
      unfold cnt cntm
      simp [DirectedGraph.new, mapLookup]
    have hz1 : cnt DirectedGraph.new e.v1 e = 0 := by
      unfold cnt cntm
      simp [DirectedGraph.new, mapLookup]
    rw [hz]
    have hnp : ¬ present DirectedGraph.new e := by
      unfold present
      rw [hz1]
      simp
    rw [if_neg hnp]

theorem Inv_apply_to (c : GraphCommand) (g : DirectedGraph) (hI : Inv g) :
    Inv (c.apply_to g).2 := by
  cases c with
  | AddVertex v => exact Inv_add_vertex g v hI
  | RemoveVertex v => exact Inv_remove_vertex g v hI
  | AddEdge v1 v2 => exact Inv_add_edge g ⟨v1, v2⟩ hI
  | RemoveEdge v1 v2 => exact Inv_remove_edge g ⟨v1, v2⟩ hI

theorem Inv_apply_commands (cs : List GraphCommand) (g : DirectedGraph) (hI : Inv g) :
    Inv (GraphCommand.apply_commands cs g) := by
  induction cs generalizing g with
  | nil => exact hI
  | cons c cs ih => exact ih _ (Inv_apply_to c g hI)

theorem Inv_reachable (cs : List GraphCommand) :
    Inv (GraphCommand.apply_commands cs DirectedGraph.new) :=
  Inv_apply_commands cs _ Inv_new

/-! Derived facts about removal and about the edges sequence. -/

theorem present_remove_vertex (g : DirectedGraph) (hI : Inv g) (v : VertexId)
    (x : Edge) :
    present (g.remove_vertex v).2 x ↔
      (present g x ∧ ¬ x.v1 = v ∧ ¬ x.v2 = v) := by
  by_cases hcv : g.contains_vertex v = true
  · obtain ⟨bag, hbag⟩ := Option.isSome_iff_exists.mp (contains_vertex_eq g v ▸ hcv)
    obtain ⟨-, hcnt, -, -, -⟩ := remove_vertex_present g v bag hI.nodup hbag
    have hbagcount : ∀ y : Edge, bag.count y = cnt g v y := by
      intro y
      unfold cnt cntm
      rw [hbag]
      rfl
    have key : ∀ (u : VertexId) (y : Edge),
        cnt (g.remove_vertex v).2 u y =
          (if u = v then 0 else (if present g y then mult y u else 0))
            - (if present g y then mult y v else 0) * contrib v u y := by
      intro u y
      rw [hcnt u y, hbagcount y, hI.counts v y]
      congr 1
      by_cases hu : u = v
      · simp [hu]
      · simp [hu, hI.counts u y]
    obtain ⟨a, b⟩ := x
    show cnt (g.remove_vertex v).2 a ⟨a, b⟩ ≠ 0 ↔ _
    rw [key a ⟨a, b⟩]
    by_cases hp : present g ⟨a, b⟩
    · simp only [hp, if_true, true_and]
      unfold mult contrib
      dsimp only
      clear hp key hbagcount hcnt hbag hcv hI
      simp only [VertexId] at *
      split_ifs <;> omega
    · simp only [if_neg hp]
      simp [hp]
  · have h' : g.contains_vertex v = false := by
      cases hh : g.contains_vertex v
      · rfl
      · exact absurd hh hcv
    rw [remove_vertex_absent g v h']
    constructor
    · intro hp
      refine ⟨hp, ?_, ?_⟩
      · intro h1
        obtain ⟨he1, -⟩ := hI.endpoints _ hp
        rw [h1] at he1
        rw [he1] at h'
        cases h'
      · intro h2
        obtain ⟨-, he2⟩ := hI.endpoints _ hp
        rw [h2] at he2
        rw [he2] at h'
        cases h'
    · intro hp
      exact hp.1

theorem contains_vertex_remove_vertex_self (g : DirectedGraph)
    (hnd : (keysOf g.edge_map).Nodup) (v : VertexId) :
    (g.remove_vertex v).2.contains_vertex v = false := by
  by_cases hcv : g.contains_vertex v = true
  · obtain ⟨bag, hbag⟩ := Option.isSome_iff_exists.mp (contains_vertex_eq g v ▸ hcv)
    obtain ⟨-, -, hcvv, -, -⟩ := remove_vertex_present g v bag hnd hbag
    exact hcvv
  · have h' : g.contains_vertex v = false := by
      cases hh : g.contains_vertex v
      · rfl
      · exact absurd hh hcv
    rw [remove_vertex_absent g v h']
    exact h'

theorem cnt_remove_vertex_incident (g : DirectedGraph) (hI : Inv g) (v : VertexId)
    (e : Edge) (hinc : e.v1 = v ∨ e.v2 = v) (u : VertexId) :
    cnt (g.remove_vertex v).2 u e = 0 := by
  have hI' : Inv (g.remove_vertex v).2 := Inv_remove_vertex g v hI
  rw [hI'.counts u e]
  rw [if_neg]
  rw [present_remove_vertex g hI v e]
  rintro ⟨-, h1, h2⟩
  rcases hinc with h | h
  · exact h1 h
  · exact h2 h

theorem sum_mult_eq (x : Edge) :
    ∀ m : EdgeMap, (m.map (fun p => mult x p.1)).sum
      = (keysOf m).count x.v1 + (keysOf m).count x.v2
  | [] => by simp [keysOf]
  | (u, bag) :: m => by
    rw [List.map_cons, List.sum_cons, sum_mult_eq x m, keysOf_cons_eq]
    rw [List.count_cons, List.count_cons]
    unfold mult
    by_cases h1 : x.v1 = u <;> by_cases h2 : x.v2 = u <;> simp [h1, h2] <;>
      first
      | omega
      | (split_ifs <;> omega)

theorem count_edges_eq (g : DirectedGraph) (hI : Inv g) (x : Edge) :
    g.edges.count x = if present g x then 2 else 0 := by
  unfold DirectedGraph.edges
  rw [List.count_flatten, List.map_map]
  by_cases hp : present g x
  · rw [if_pos hp]
    have hmap : g.edge_map.map (List.count x ∘ Prod.snd)
        = g.edge_map.map (fun p => mult x p.1) := by
      apply List.map_congr_left
      intro p hpmem
      obtain ⟨u, bag⟩ := p
      have hlook := mem_mapLookup g.edge_map u bag hI.nodup hpmem
      have hcnt : bag.count x = cnt g u x := by
        unfold cnt cntm
        rw [hlook]
        rfl
      simp only [Function.comp]
      rw [hcnt, hI.counts u x, if_pos hp]
    rw [hmap, sum_mult_eq]
    obtain ⟨h1, h2⟩ := hI.endpoints x hp
    have hm1 : x.v1 ∈ keysOf g.edge_map :=
      (mapLookup_isSome_iff _ _).mp (contains_vertex_eq g x.v1 ▸ h1)
    have hm2 : x.v2 ∈ keysOf g.edge_map :=
      (mapLookup_isSome_iff _ _).mp (contains_vertex_eq g x.v2 ▸ h2)
    rw [List.count_eq_one_of_mem hI.nodup hm1, List.count_eq_one_of_mem hI.nodup hm2]
  · rw [if_neg hp]
    apply List.sum_eq_zero
    intro n hn
    rw [List.mem_map] at hn
    obtain ⟨p, hpmem, rfl⟩ := hn
    obtain ⟨u, bag⟩ := p
    have hlook := mem_mapLookup g.edge_map u bag hI.nodup hpmem
    have hcnt : bag.count x = cnt g u x := by
      unfold cnt cntm
      rw [hlook]
      rfl
    simp only [Function.comp]
    rw [hcnt]
    exact cnt_eq_zero_of_not_present g hI x hp u

theorem mem_edges_iff_present (g : DirectedGraph) (hI : Inv g) (x : Edge) :
    x ∈ g.edges ↔ present g x := by
  rw [← List.count_pos_iff, count_edges_eq g hI x]
  by_cases hp : present g x <;> simp [hp]

theorem edges_length_eq (g : DirectedGraph) :
    g.edges.length = (g.edge_map.map (fun p => p.2.length)).sum := by
  unfold DirectedGraph.edges
  rw [List.length_flatten, List.map_map]
  rfl

theorem edge_count_eq_half (g : DirectedGraph) :
    g.edge_count = g.edges.length / 2 := by
  unfold DirectedGraph.edge_count
  rw [edges_length_eq]

theorem edges_perm_two_dedup (g : DirectedGraph) (hI : Inv g) :
    g.edges.Perm (g.edges.dedup ++ g.edges.dedup) := by
  rw [List.perm_iff_count]
  intro x
  rw [List.count_append, List.count_dedup, count_edges_eq g hI x]
  by_cases hm : x ∈ g.edges
  · have hp : present g x := (mem_edges_iff_present g hI x).mp hm
    simp [hm, hp]
  · have hp : ¬ present g x := fun hp => hm ((mem_edges_iff_present g hI x).mpr hp)
    simp [hm, hp]

theorem edges_length_twice_dedup (g : DirectedGraph) (hI : Inv g) :
    g.edges.length = 2 * g.edges.dedup.length := by
  have hperm := edges_perm_two_dedup g hI
  have hl := hperm.length_eq
  rw [List.length_append] at hl
  omega

/-! Replay lemmas for as_commands. -/

theorem fold_add_vertex :
    ∀ (V : List VertexId) (h : DirectedGraph),
      (∀ (u : VertexId) (x : Edge),
        cnt (V.foldl (fun g v => (g.add_vertex v).2) h) u x = cnt h u x) ∧
      (∀ u : VertexId,
        (V.foldl (fun g v => (g.add_vertex v).2) h).contains_vertex u
          = (h.contains_vertex u || decide (u ∈ V)))
  | [], h => by
    constructor
    · intro u x
      rfl
    · intro u
      simp
  | v :: V, h => by
    obtain ⟨ih1, ih2⟩ := fold_add_vertex V (h.add_vertex v).2
    rw [List.foldl_cons]
    constructor
    · intro u x
      rw [ih1 u x, cnt_add_vertex]
    · intro u
      rw [ih2 u, contains_vertex_add_vertex]
      by_cases h1 : u = v <;> by_cases h2 : u ∈ V <;> simp [h1, h2]

theorem fold_add_edge :
    ∀ (E : List Edge) (h : DirectedGraph), Inv h →
      (∀ e ∈ E, h.contains_vertex e.v1 = true ∧ h.contains_vertex e.v2 = true) →
      (∀ u : VertexId,
        (E.foldl (fun g e => (g.add_edge e).2) h).contains_vertex u
          = h.contains_vertex u) ∧
      (∀ x : Edge,
        present (E.foldl (fun g e => (g.add_edge e).2) h) x ↔ (present h x ∨ x ∈ E))
  | [], h, _, _ => by
    constructor
    · intro u
      rfl
    · intro x
      simp
  | e :: E, h, hI, hend => by
    have hI' : Inv (h.add_edge e).2 := Inv_add_edge h e hI
    have hcv : ∀ u : VertexId,
        (h.add_edge e).2.contains_vertex u = h.contains_vertex u := by
      intro u
      by_cases hc : h.contains_edge e = true
      · rw [add_edge_contained h e hc]
      · have hc' : h.contains_edge e = false := by
          cases hh : h.contains_edge e
          · rfl
          · exact absurd hh hc
        rw [contains_vertex_add_edge_new h e hc' u]
        obtain ⟨h1, h2⟩ := hend e (List.mem_cons_self e E)
        by_cases hu1 : u = e.v1
        · rw [hu1, h1]
          simp
        · by_cases hu2 : u = e.v2
          · rw [hu2, h2]
            simp
          · simp [hu1, hu2]
    have hpres1 : ∀ x : Edge, present (h.add_edge e).2 x ↔ (present h x ∨ x = e) := by
      intro x
      by_cases hc : h.contains_edge e = true
      · rw [add_edge_contained h e hc]
        have hpe : present h e := (contains_edge_iff_present h hI e).mp hc
        constructor
        · intro hp
          exact Or.inl hp
        · rintro (hp | rfl)
          · exact hp
          · exact hpe
      · have hc' : h.contains_edge e = false := by
          cases hh : h.contains_edge e
          · rfl
          · exact absurd hh hc
        show cnt (h.add_edge e).2 x.v1 x ≠ 0 ↔ _
        rw [cnt_add_edge_new h e hc' x.v1 x]
        by_cases hx : x = e
        · subst hx
          rw [if_pos rfl]
          have hm1 : 1 ≤ mult x x.v1 := by
            unfold mult
            simp
          constructor
          · intro _
            exact Or.inr rfl
          · intro _
            omega
        · have hz : (if x = e then mult e x.v1 else 0) = 0 := by simp [hx]
          rw [hz, Nat.add_zero]
          constructor
          · intro hne
            exact Or.inl hne
          · rintro (hp | rfl)
            · exact hp
            · exact absurd rfl hx
    have hend' : ∀ e' ∈ E,
        (h.add_edge e).2.contains_vertex e'.v1 = true ∧
        (h.add_edge e).2.contains_vertex e'.v2 = true := by
      intro e' he'
      obtain ⟨a1, a2⟩ := hend e' (List.mem_cons_of_mem _ he')
      rw [hcv, hcv]
      exact ⟨a1, a2⟩
    obtain ⟨ih1, ih2⟩ := fold_add_edge E (h.add_edge e).2 hI' hend'
    rw [List.foldl_cons]
    constructor
    · intro u
      rw [ih1 u, hcv u]
    · intro x
      rw [ih2 x, hpres1 x]
      constructor
      · rintro ((hp | rfl) | hm)
        · exact Or.inl hp
        · exact Or.inr (List.mem_cons_self _ _)
        · exact Or.inr (List.mem_cons_of_mem _ hm)
      · rintro (hp | hm)
        · exact Or.inl (Or.inl hp)
        · rcases List.mem_cons.mp hm with rfl | hm'
          · exact Or.inl (Or.inr rfl)
          · exact Or.inr hm'

/-! Lemmas about the history engine. -/

theorem collectIter_eq_none : ∀ l : HashList, l.collectIter = none
  | .Nil => rfl
  | .Node x xs => by
    unfold HashList.collectIter
    rw [collectIter_eq_none xs]
    rfl

theorem commits_fn_eq_none (r : Repository Item) : r.commits_fn = none := by
  unfold Repository.commits_fn
  rw [collectIter_eq_none]
  rfl

/-! Claims. -/

/-- Claim C1: every HistorizedGraph mutation (add_vertex, remove_vertex,
add_edge, remove_edge) is first committed to the Repository as a
single-command batch; if the commit returns an error the in-memory
DirectedGraph is left unchanged and the mutation returns false; the
DirectedGraph is mutated only when the commit succeeds. -/
theorem claim_C1 (hg : HistorizedGraph) (v : VertexId) (e : Edge) :
    ((commit_command hg (.AddVertex v)).1.isOk = false →
      hg.add_vertex v = (false, ⟨(commit_command hg (.AddVertex v)).2, hg.graph⟩)) ∧
    ((commit_command hg (.AddVertex v)).1.isOk = true →
      hg.add_vertex v = ((hg.graph.add_vertex v).1,
        ⟨(commit_command hg (.AddVertex v)).2, (hg.graph.add_vertex v).2⟩)) ∧
    ((commit_command hg (.RemoveVertex v)).1.isOk = false →
      hg.remove_vertex v = (false, ⟨(commit_command hg (.RemoveVertex v)).2, hg.graph⟩)) ∧
    ((commit_command hg (.RemoveVertex v)).1.isOk = true →
      hg.remove_vertex v = ((hg.graph.remove_vertex v).1,
        ⟨(commit_command hg (.RemoveVertex v)).2, (hg.graph.remove_vertex v).2⟩)) ∧
    ((commit_command hg (.AddEdge e.v1 e.v2)).1.isOk = false →
      hg.add_edge e = (false, ⟨(commit_command hg (.AddEdge e.v1 e.v2)).2, hg.graph⟩)) ∧
    ((commit_command hg (.AddEdge e.v1 e.v2)).1.isOk = true →
      hg.add_edge e = ((hg.graph.add_edge e).1,
        ⟨(commit_command hg (.AddEdge e.v1 e.v2)).2, (hg.graph.add_edge e).2⟩)) ∧
    ((commit_command hg (.RemoveEdge e.v1 e.v2)).1.isOk = false →
      hg.remove_edge e = (false, ⟨(commit_command hg (.RemoveEdge e.v1 e.v2)).2, hg.graph⟩)) ∧
    ((commit_command hg (.RemoveEdge e.v1 e.v2)).1.isOk = true →
      hg.remove_edge e = ((hg.graph.remove_edge e).1,
        ⟨(commit_command hg (.RemoveEdge e.v1 e.v2)).2, (hg.graph.remove_edge e).2⟩)) := by
  refine ⟨?_, ?_, ?_, ?_, ?_, ?_, ?_, ?_⟩
  · intro hfail
    unfold HistorizedGraph.add_vertex
    rcases hc : commit_command hg (.AddVertex v) with ⟨res, repo⟩
    rw [hc] at hfail
    cases res
    · rfl
    · simp [Except.isOk, Except.toBool] at hfail
  · intro hok
    unfold HistorizedGraph.add_vertex
    rcases hc : commit_command hg (.AddVertex v) with ⟨res, repo⟩
    rw [hc] at hok
    cases res
    · simp [Except.isOk, Except.toBool] at hok
    · rfl
  · intro hfail
    unfold HistorizedGraph.remove_vertex
    rcases hc : commit_command hg (.RemoveVertex v) with ⟨res, repo⟩
    rw [hc] at hfail
    cases res
    · rfl
    · simp [Except.isOk, Except.toBool] at hfail
  · intro hok
    unfold HistorizedGraph.remove_vertex
    rcases hc : commit_command hg (.RemoveVertex v) with ⟨res, repo⟩
    rw [hc] at hok
    cases res
    · simp [Except.isOk, Except.toBool] at hok
    · rfl
  · intro hfail
    unfold HistorizedGraph.add_edge
    rcases hc : commit_command hg (.AddEdge e.v1 e.v2) with ⟨res, repo⟩
    rw [hc] at hfail
    cases res
    · rfl
    · simp [Except.isOk, Except.toBool] at hfail
  · intro hok
    unfold HistorizedGraph.add_edge
    rcases hc : commit_command hg (.AddEdge e.v1 e.v2) with ⟨res, repo⟩
    rw [hc] at hok
    cases res
    · simp [Except.isOk, Except.toBool] at hok
    · rfl
  · intro hfail
    unfold HistorizedGraph.remove_edge
    rcases hc : commit_command hg (.RemoveEdge e.v1 e.v2) with ⟨res, repo⟩
    rw [hc] at hfail
    cases res
    · rfl
    · simp [Except.isOk, Except.toBool] at hfail
  · intro hok
    unfold HistorizedGraph.remove_edge
    rcases hc : commit_command hg (.RemoveEdge e.v1 e.v2) with ⟨res, repo⟩
    rw [hc] at hok
    cases res
    · simp [Except.isOk, Except.toBool] at hok
    · rfl

/-- Witness for C1: on a repository checked out on a Tag the commit fails and
the graph is untouched while the mutation returns false; on a fresh branch
the commit succeeds and the graph mutator is applied. -/
theorem claim_C1_witness :
    hgTag.add_vertex 5 = (false, ⟨(commit_command hgTag (.AddVertex 5)).2, hgTag.graph⟩) ∧
    hgBranch.add_edge ⟨1, 2⟩ = ((hgBranch.graph.add_edge ⟨1, 2⟩).1,
      ⟨(commit_command hgBranch (.AddEdge 1 2)).2, (hgBranch.graph.add_edge ⟨1, 2⟩).2⟩) :=
  ⟨(claim_C1 hgTag 5 ⟨1, 2⟩).1 rfl,
    (claim_C1 hgBranch 5 ⟨1, 2⟩).2.2.2.2.2.1 rfl⟩

/-- Claim C2: committing while the current reference is a Tag or a Detached
reference returns an error carrying the reference's name and leaves the
repository, in particular its commit table, reference list and current
reference with its chain, unchanged. -/
theorem claim_C2 (Item : Type) (r : Repository Item) (item : Item)
    (author : Author) (comment : Comment)
    (h : r.current.is_read_only = true) :
    r.commit item author comment =
      (Except.error ("Cannot modify Reference " ++ r.current.name), r) := by
  unfold Repository.commit
  simp [h]

/-- Witness for C2: the concrete Tag-checked-out repository rejects a commit
and is returned unchanged. -/
theorem claim_C2_witness :
    tagRepo.current.is_read_only = true ∧
    tagRepo.commit [] ⟨"a"⟩ ⟨"c"⟩ =
      (Except.error ("Cannot modify Reference " ++ tagRepo.current.name), tagRepo) :=
  ⟨rfl, claim_C2 Commands tagRepo [] ⟨"a"⟩ ⟨"c"⟩ rfl⟩

/-- Claim C3: commits() never completes normally: driving HashListIter to the
end of the chain calls tail() on Nil, which panics (modelled by none), even on
a fresh repository with zero commits, although the chain length after N
successful commits is indeed N (here 0 and 2). -/
theorem claim_C3 :
    freshRepo.commits_fn = none ∧
    repo2.commits_fn = none ∧
    HashList.len freshRepo.current.hashs = 0 ∧
    HashList.len repo2.current.hashs = 2 :=
  ⟨commits_fn_eq_none freshRepo, commits_fn_eq_none repo2, rfl, rfl⟩

/-- Claim C4: checkout_hash does not behave as specified: on the repository
whose chain is [1] it errors for hash 1 although 1 occurs in the chain, and
on the chain [3, 2, 1] it succeeds for the absent hash 9 and detaches onto
[2, 1], which is not a chain whose head is the requested hash. -/
theorem claim_C4 :
    repo1.current.hashs.contains (fun x => x == 1) = true ∧
    (repo1.checkout_hash 1).1.isOk = false ∧
    (repo1.checkout_hash 1).2 = repo1 ∧
    repo3.current.hashs.contains (fun x => x == 9) = false ∧
    (repo3.checkout_hash 9).1.isOk = true ∧
    (repo3.checkout_hash 9).2.current =
      Ref.Detached (HashList.Node 2 (HashList.Node 1 HashList.Nil)) :=
  ⟨rfl, rfl, rfl, rfl, rfl, rfl⟩

/-- Claim C5: first_common only ever compares elements of its first argument
with the head of its second argument: for a = [1, 2] and b = [3, 2] the hash
2 occurs in both chains (a shared chain of length 1), yet first_common
returns none. -/
theorem claim_C5 :
    HashList.first_common chainA chainB = none ∧
    chainA.contains (fun x => x == 2) = true ∧
    chainB.contains (fun x => x == 2) = true :=
  ⟨rfl, rfl, rfl⟩

theorem bool_eq_of_iff {b1 b2 : Bool} (h : b1 = true ↔ b2 = true) : b1 = b2 := by
  cases b1 <;> cases b2 <;> simp_all

/-- Claim C6: for every DirectedGraph reachable from the empty graph through
the public API and every edge with contains_edge true, the edge appears in
outbound_edges of its source and in inbound_edges of its target with equal,
positive multiplicity, self-loops included. -/
theorem claim_C6 (cs : List GraphCommand) (e : Edge)
    (h : (GraphCommand.apply_commands cs DirectedGraph.new).contains_edge e = true) :
    0 < ((GraphCommand.apply_commands cs DirectedGraph.new).outbound_edges e.v1).count e ∧
    ((GraphCommand.apply_commands cs DirectedGraph.new).outbound_edges e.v1).count e
      = ((GraphCommand.apply_commands cs DirectedGraph.new).inbound_edges e.v2).count e := by
  set g := GraphCommand.apply_commands cs DirectedGraph.new with hg
  have hI : Inv g := Inv_reachable cs
  have hp : present g e := (contains_edge_iff_present g hI e).mp h
  have hout : (g.outbound_edges e.v1).count e = cnt g e.v1 e := by
    unfold DirectedGraph.outbound_edges
    rw [List.count_filter (by simp)]
    rfl
  have hin : (g.inbound_edges e.v2).count e = cnt g e.v2 e := by
    unfold DirectedGraph.inbound_edges
    rw [List.count_filter (by simp)]
    rfl
  rw [hout, hin, hI.counts e.v1 e, hI.counts e.v2 e, if_pos hp, if_pos hp]
  constructor
  · unfold mult
    split_ifs <;> omega
  · unfold mult
    split_ifs <;> omega

/-- Witness for C6: in the reachable graph holding the single self-loop
(1, 1), the loop appears twice in outbound_edges 1 and twice in
inbound_edges 1. -/
theorem claim_C6_witness :
    0 < ((GraphCommand.apply_commands [GraphCommand.AddEdge 1 1]
        DirectedGraph.new).outbound_edges 1).count ⟨1, 1⟩ ∧
    ((GraphCommand.apply_commands [GraphCommand.AddEdge 1 1]
        DirectedGraph.new).outbound_edges 1).count ⟨1, 1⟩
      = ((GraphCommand.apply_commands [GraphCommand.AddEdge 1 1]
        DirectedGraph.new).inbound_edges 1).count ⟨1, 1⟩ :=
  claim_C6 [GraphCommand.AddEdge 1 1] ⟨1, 1⟩ (by decide)

/-- Counterexample to C7 as stated: the graph holding the edge (1, 2) does
not record a second occurrence on a repeated add_edge; the call returns
false, the graph is unchanged, and the multiplicity stays 1. -/
theorem claim_C7_counterexample :
    gEdge12.contains_edge ⟨1, 2⟩ = true ∧
    gEdge12.add_edge ⟨1, 2⟩ = (false, gEdge12) ∧
    cnt gEdge12 1 ⟨1, 2⟩ = 1 ∧
    cnt (gEdge12.add_edge ⟨1, 2⟩).2 1 ⟨1, 2⟩ = 1 ∧
    (gEdge12.add_edge ⟨1, 2⟩).2.edge_count = 1 := by
  decide

/-- Claim C7 amended: parallel edges are not permitted by add_edge: whenever
the graph already contains a logically-identical edge, add_edge returns false
and leaves the graph unchanged, so the multiplicity of an edge value never
reaches 2 through add_edge. -/
theorem claim_C7 (g : DirectedGraph) (e : Edge)
    (h : g.contains_edge e = true) : g.add_edge e = (false, g) :=
  add_edge_contained g e h

/-- Witness for C7 (amended): re-adding the present edge (1, 2) is rejected
and the graph is unchanged. -/
theorem claim_C7_witness :
    gEdge12.contains_edge ⟨1, 2⟩ = true ∧
    gEdge12.add_edge ⟨1, 2⟩ = (false, gEdge12) :=
  ⟨by decide, claim_C7 gEdge12 ⟨1, 2⟩ (by decide)⟩

/-- Claim C8: for every reachable DirectedGraph G, replaying as_commands G
(all AddVertex commands, then all AddEdge commands in iteration order) on the
empty graph rebuilds a graph with the same vertex set, the same contained
edges, and the same per-vertex edge multiplicities as G. -/
theorem claim_C8 (cs : List GraphCommand) :
    (∀ u : VertexId,
      (GraphCommand.apply_commands
          (GraphCommand.as_commands (GraphCommand.apply_commands cs DirectedGraph.new))
          DirectedGraph.new).contains_vertex u
        = (GraphCommand.apply_commands cs DirectedGraph.new).contains_vertex u) ∧
    (∀ x : Edge,
      (GraphCommand.apply_commands
          (GraphCommand.as_commands (GraphCommand.apply_commands cs DirectedGraph.new))
          DirectedGraph.new).contains_edge x
        = (GraphCommand.apply_commands cs DirectedGraph.new).contains_edge x) ∧
    (∀ (u : VertexId) (x : Edge),
      cnt (GraphCommand.apply_commands
          (GraphCommand.as_commands (GraphCommand.apply_commands cs DirectedGraph.new))
          DirectedGraph.new) u x
        = cnt (GraphCommand.apply_commands cs DirectedGraph.new) u x) := by
  set g := GraphCommand.apply_commands cs DirectedGraph.new with hgdef
  have hIg : Inv g := Inv_reachable cs
  have hIg' : Inv (GraphCommand.apply_commands (GraphCommand.as_commands g)
      DirectedGraph.new) := Inv_apply_commands _ _ Inv_new
  have hsplit : GraphCommand.apply_commands (GraphCommand.as_commands g) DirectedGraph.new
      = g.edges.foldl (fun gr e => (gr.add_edge e).2)
          (g.vertices.foldl (fun gr v => (gr.add_vertex v).2) DirectedGraph.new) := by
    unfold GraphCommand.as_commands GraphCommand.apply_commands
    rw [List.foldl_append, List.foldl_map, List.foldl_map]
    rfl
  obtain ⟨hV1, hV2⟩ := fold_add_vertex g.vertices DirectedGraph.new
  have hcnt0 : ∀ (u : VertexId) (x : Edge), cnt DirectedGraph.new u x = 0 := by
    intro u x
    rfl
  have hcv_mem : ∀ (gg : DirectedGraph) (u : VertexId),
      gg.contains_vertex u = decide (u ∈ keysOf gg.edge_map) := by
    intro gg u
    rw [contains_vertex_eq]
    by_cases hm : u ∈ keysOf gg.edge_map
    · rw [(mapLookup_isSome_iff _ _).mpr hm]
      simp [hm]
    · have hns : ¬ (mapLookup gg.edge_map u).isSome = true :=
        fun hs => hm ((mapLookup_isSome_iff _ _).mp hs)
      rw [Bool.not_eq_true] at hns
      rw [hns]
      simp [hm]
  have hcv1 : ∀ u : VertexId,
      (g.vertices.foldl (fun gr v => (gr.add_vertex v).2)
        DirectedGraph.new).contains_vertex u = g.contains_vertex u := by
    intro u
    rw [hV2 u, hcv_mem g u]
    rfl
  have hend : ∀ e ∈ g.edges,
      (g.vertices.foldl (fun gr v => (gr.add_vertex v).2)
        DirectedGraph.new).contains_vertex e.v1 = true ∧
      (g.vertices.foldl (fun gr v => (gr.add_vertex v).2)
        DirectedGraph.new).contains_vertex e.v2 = true := by
    intro e he
    have hpe : present g e := (mem_edges_iff_present g hIg e).mp he
    obtain ⟨h1, h2⟩ := hIg.endpoints e hpe
    rw [hcv1 e.v1, hcv1 e.v2]
    exact ⟨h1, h2⟩
  have hIh1 : Inv (g.vertices.foldl (fun gr v => (gr.add_vertex v).2)
      DirectedGraph.new) := by
    have hx := Inv_apply_commands (g.vertices.map GraphCommand.AddVertex)
      DirectedGraph.new Inv_new
    unfold GraphCommand.apply_commands at hx
    rw [List.foldl_map] at hx
    exact hx
  obtain ⟨hE1, hE2⟩ := fold_add_edge g.edges _ hIh1 hend
  have hcv' : ∀ u : VertexId,
      (GraphCommand.apply_commands (GraphCommand.as_commands g)
        DirectedGraph.new).contains_vertex u = g.contains_vertex u := by
    intro u
    rw [hsplit, hE1 u, hcv1 u]
  have hpres' : ∀ x : Edge,
      present (GraphCommand.apply_commands (GraphCommand.as_commands g)
        DirectedGraph.new) x ↔ present g x := by
    intro x
    rw [hsplit, hE2 x]
    have hnp1 : ¬ present (g.vertices.foldl (fun gr v => (gr.add_vertex v).2)
        DirectedGraph.new) x := by
      unfold present
      rw [hV1 x.v1 x, hcnt0]
      simp
    rw [mem_edges_iff_present g hIg x]
    constructor
    · rintro (hp | hp)
      · exact absurd hp hnp1
      · exact hp
    · intro hp
      exact Or.inr hp
  refine ⟨hcv', ?_, ?_⟩
  · intro x
    apply bool_eq_of_iff
    rw [contains_edge_iff_present _ hIg' x, contains_edge_iff_present g hIg x]
    exact hpres' x
  · intro u x
    rw [hIg'.counts u x, hIg.counts u x]
    rw [if_congr (hpres' x) rfl rfl]

/-- Claim C9: remove_vertex returns true exactly when the vertex was present,
is a no-op returning false on an absent vertex, and on success removes the
vertex entry and every occurrence of every incident edge from both endpoint
indices; on the path graph 0 to 1 to 2, removing vertex 1 leaves 2 vertices
and 0 edges. -/
theorem claim_C9 :
    (∀ (cs : List GraphCommand) (v : VertexId),
      ((GraphCommand.apply_commands cs DirectedGraph.new).remove_vertex v).1
          = (GraphCommand.apply_commands cs DirectedGraph.new).contains_vertex v ∧
      ((GraphCommand.apply_commands cs DirectedGraph.new).contains_vertex v = false →
        (GraphCommand.apply_commands cs DirectedGraph.new).remove_vertex v
          = (false, GraphCommand.apply_commands cs DirectedGraph.new)) ∧
      ((GraphCommand.apply_commands cs DirectedGraph.new).remove_vertex v).2.contains_vertex v
          = false ∧
      (∀ (e : Edge) (u : VertexId), e.v1 = v ∨ e.v2 = v →
        cnt ((GraphCommand.apply_commands cs DirectedGraph.new).remove_vertex v).2 u e
          = 0)) ∧
    (pathGraph.remove_vertex 1).2.vertex_count = 2 ∧
    (pathGraph.remove_vertex 1).2.edge_count = 0 := by
  refine ⟨?_, by decide, by decide⟩
  intro cs v
  have hI : Inv (GraphCommand.apply_commands cs DirectedGraph.new) := Inv_reachable cs
  refine ⟨remove_vertex_fst _ v, ?_, ?_, ?_⟩
  · intro habs
    exact remove_vertex_absent _ v habs
  · exact contains_vertex_remove_vertex_self _ hI.nodup v
  · intro e u hinc
    exact cnt_remove_vertex_incident _ hI v e hinc u

/-- Witness for C9: on the path graph, removing the absent vertex 9 is a
no-op returning false, and after removing vertex 1 the incident edge (0, 1)
has multiplicity 0 at vertex 0. -/
theorem claim_C9_witness :
    pathGraph.remove_vertex 9 = (false, pathGraph) ∧
    cnt (pathGraph.remove_vertex 1).2 0 ⟨0, 1⟩ = 0 :=
  ⟨((claim_C9.1 [GraphCommand.AddEdge 0 1, GraphCommand.AddEdge 1 2] 9).2.1 (by decide)),
    ((claim_C9.1 [GraphCommand.AddEdge 0 1, GraphCommand.AddEdge 1 2] 1).2.2.2 ⟨0, 1⟩ 0
      (Or.inr rfl))⟩

/-- Claim C10: the edges iterator yields every edge of a reachable graph
exactly twice, so its length is 2 times edge_count and differs from the
number of distinct edges whenever the graph has edges. -/
theorem claim_C10 (cs : List GraphCommand) :
    (GraphCommand.apply_commands cs DirectedGraph.new).edges.length
      = 2 * (GraphCommand.apply_commands cs DirectedGraph.new).edge_count ∧
    (0 < (GraphCommand.apply_commands cs DirectedGraph.new).edge_count →
      (GraphCommand.apply_commands cs DirectedGraph.new).edges.length
        ≠ (GraphCommand.apply_commands cs DirectedGraph.new).edges.dedup.length) := by
  set g := GraphCommand.apply_commands cs DirectedGraph.new with hgdef
  have hI : Inv g := Inv_reachable cs
  have h2d := edges_length_twice_dedup g hI
  have hec : g.edge_count = g.edges.dedup.length := by
    rw [edge_count_eq_half, h2d]
    omega
  constructor
  · rw [hec, h2d]
  · intro hpos
    rw [hec] at hpos
    rw [h2d]
    omega

/-- Witness for C10: the reachable graph holding the single edge (1, 2) has
edges length 2, edge_count 1, and one distinct edge. -/
theorem claim_C10_witness :
    gEdge12.edges.length = 2 * gEdge12.edge_count ∧
    gEdge12.edges.length ≠ gEdge12.edges.dedup.length :=
  ⟨(claim_C10 [GraphCommand.AddEdge 1 2]).1,
    (claim_C10 [GraphCommand.AddEdge 1 2]).2 (by decide)⟩

end HistoGraph
